import Mathlib

/-!
Verification of the path-construction and classification engine of
`src/utils/library_extractor.js` (the `step6_constructPath` document):
a shallow embedding of its data model and functions, followed by theorems
settling the specification claims about it.

JS-to-Lean conventions used throughout:
* JS objects used as string-keyed maps become association lists
  `List (String × _)`; key-iteration order is the list order (JS objects
  iterate keys in insertion order).
* JS arrays become `List _`; `Array.push` is append at the right end,
  `Array.shift` removes the head.
* A JS `Set` of strings becomes a duplicate-free `List String` grown with
  `addFound`.
* JS numbers holding CVSS scores and release intervals become `Int`
  (only their ordering and the falsy-ness of `0` matter to this engine).
-/

set_option autoImplicit false

namespace Vuln4Real

/-- The `DependencyType` enum object of the source. -/
inductive DependencyType where
  | developmentOnly
  | withinProject
  | lagging
  | vulnerable
  | normal
deriving DecidableEq

/-- One element of a finding's `vulnerabilities` array:
`{source, name, severity, cvss}`. Only `cvss` is ever read by the engine. -/
structure VulnEntry where
  source : String
  name : String
  severity : String
  cvss : Int
deriving DecidableEq

/-- One entry of the step5 output array: `{ fileName, vulnerabilities }`
(the unused `filePath` field is omitted). -/
structure Finding where
  fileName : String
  vulnerabilities : List VulnEntry
deriving DecidableEq

/-- The record stored in `report.dependencies[name]`:
`{ dependencyTypes, highestCvssScore, intervals }`. -/
structure DepRecord where
  dependencyTypes : List DependencyType
  highestCvssScore : Int
  intervals : Int
deriving DecidableEq

mutual
/-- A node of the step1 dependency tree: the `dependencies` field maps child
package name to child node, in insertion order. A JS node without a
`dependencies` field is the node with the empty `DepList`. (A mutual
inductive is used instead of a nested `List (String × DepTree)` so that the
recursive functions below are structural and compute inside the kernel.) -/
inductive DepTree where
  | node (dependencies : DepList)
/-- The insertion-ordered entries of one `dependencies` object. -/
inductive DepList where
  | nil
  | cons (name : String) (child : DepTree) (rest : DepList)
end

/-- The entries of a `dependencies` object as an ordinary list. -/
def DepList.toList : DepList → List (String × DepTree)
  | .nil => []
  | .cons d c rest => (d, c) :: toList rest

/-- `Object.keys(dependencies)`: the names, in insertion order. -/
def DepList.keys : DepList → List String
  | .nil => []
  | .cons d _ rest => d :: keys rest

/-- JS property access `dependencies[dep]`: the first entry named `dep`. -/
def DepList.lookup (key : String) : DepList → Option DepTree
  | .nil => none
  | .cons d c rest => if d = key then some c else lookup key rest

/-- Build a `DepList` from an ordinary list of entries. -/
def depListOf : List (String × DepTree) → DepList
  | [] => DepList.nil
  | (d, c) :: rest => DepList.cons d c (depListOf rest)

/-- `s.split(':')[0]` on the character list: everything before the first `:`. -/
def takeUntilColon (l : List Char) : List Char :=
  l.takeWhile (fun c => c ≠ ':')

/-- JS `String.replace(pat, '')` with a string pattern: remove the first
occurrence of `pat`, leave the string unchanged when `pat` does not occur. -/
def removeFirst (pat : List Char) : List Char → List Char
  | [] => []
  | c :: rest =>
    if pat.isPrefixOf (c :: rest) then (c :: rest).drop pat.length
    else c :: removeFirst pat rest

/-- `vuln.fileName.split(':')[0].replace('.min', '').replace('.js', '')`:
the name under which a finding contributes to the `vulnerabilities` list. -/
def stripVulnName (s : String) : String :=
  ⟨removeFirst ".js".toList (removeFirst ".min".toList (takeUntilColon s.toList))⟩

/-- The derived `vulnerabilities` list of `step6_constructPath`:
`step5_output.map(vuln => vuln.fileName.split(':')[0].replace('.min','').replace('.js',''))`. -/
def vulnNames (vulnerabilitiesData : List Finding) : List String :=
  vulnerabilitiesData.map (fun v => stripVulnName v.fileName)

/-- `getHighestCvssScoreForDependency`: filter the findings whose raw
`fileName` starts with the dependency name, flatten their `cvss` scores and
take `Math.max(-1, ...scores)`. -/
def getHighestCvssScoreForDependency (dependency : String)
    (vulnerabilitiesData : List Finding) : Int :=
  let relevantEntries :=
    vulnerabilitiesData.filter (fun entry => dependency.toList.isPrefixOf entry.fileName.toList)
  let scores := (relevantEntries.map (fun entry => entry.vulnerabilities.map (fun v => v.cvss))).flatten
  scores.foldl max (-1)

/-- `classifyDependency`. The `intervals` field is
`releaseIntervals[dependency] || -1`: a stored value of `0` is falsy in JS
and therefore also yields `-1`. -/
def classifyDependency (dependency : String)
    (devDependencies withinProjectDependencies laggingDependencies vulnerabilities : List String)
    (vulnerabilitiesData : List Finding)
    (releaseIntervals : List (String × Int)) : DepRecord :=
  let intervals : Int :=
    match releaseIntervals.lookup dependency with
    | some v => if v = 0 then -1 else v
    | none => -1
  let types : List DependencyType :=
    (if devDependencies.contains dependency then [DependencyType.developmentOnly] else []) ++
    (if withinProjectDependencies.contains dependency then [DependencyType.withinProject] else []) ++
    (if laggingDependencies.contains dependency then [DependencyType.lagging] else []) ++
    (if vulnerabilities.contains dependency then [DependencyType.vulnerable] else [])
  { dependencyTypes := types
    highestCvssScore := getHighestCvssScoreForDependency dependency vulnerabilitiesData
    intervals := intervals }

/-- Total node count of every tree in a `DepList` (each node itself plus all
its descendants). -/
def nodeCountList : DepList → Nat
  | .nil => 0
  | .cons _ (DepTree.node l) rest => 1 + nodeCountList l + nodeCountList rest

/-- Number of nodes of a dependency tree (the node itself plus all
descendants); the termination measure for the traversal. -/
def nodeCount : DepTree → Nat
  | .node l => 1 + nodeCountList l

theorem nodeCountList_toList : (deps : DepList) →
    nodeCountList deps = (deps.toList.map (fun dc => nodeCount dc.2)).sum
  | .nil => rfl
  | .cons d (DepTree.node l) rest => by
    rw [nodeCountList, DepList.toList, List.map_cons, List.sum_cons,
      nodeCountList_toList rest]
    rw [nodeCount]

theorem nodeCount_node (deps : DepList) :
    nodeCount (DepTree.node deps) = 1 + (deps.toList.map (fun dc => nodeCount dc.2)).sum := by
  rw [nodeCount, nodeCountList_toList]

theorem nodeCount_pos (t : DepTree) : 1 ≤ nodeCount t := by
  obtain ⟨deps⟩ := t
  rw [nodeCount]
  omega

/-- Keys of one `dependencies` object are pairwise distinct (true of every
JS object, whose keys are unique). -/
def keysNodup : DepList → Bool
  | .nil => true
  | .cons d _ rest => !((DepList.keys rest).contains d) && keysNodup rest

/-- Well-formedness of every `dependencies` object in a `DepList`,
recursively. -/
def treeWFList : DepList → Bool
  | .nil => true
  | .cons d (DepTree.node l) rest =>
    !((DepList.keys rest).contains d) && treeWFList l && treeWFList rest

/-- Well-formedness of a parsed dependency tree: every node's keys are
pairwise distinct, recursively (guaranteed by JSON parsing in the source). -/
def treeWF : DepTree → Bool
  | .node l => treeWFList l

/-- Resolving a name path against the tree root, one `dependencies` lookup
per step: the node the path denotes, when every step has a matching child. -/
def resolve : DepTree → List String → Option DepTree
  | t, [] => some t
  | .node deps, d :: rest =>
    match deps.lookup d with
    | some child => resolve child rest
    | none => none

/-- `findChildren`: walk `currentPath` from the tree root, descending only
while the child exists, returning `[]` as soon as a step fails; at the end
return the keys of the reached node's `dependencies` object. -/
def findChildren : DepTree → List String → List String
  | .node deps, [] => deps.keys
  | .node deps, d :: rest =>
    match deps.lookup d with
    | some child => findChildren child rest
    | none => []

/-- The flush of `simplifyPath`: `if (withinProjectBuffer.length > 0)` push
`withinProjectBuffer[withinProjectBuffer.length - 1]` — i.e. the last element
when the buffer is non-empty, nothing otherwise. -/
def flushBuffer (withinProjectBuffer : List String) : List String :=
  match withinProjectBuffer.getLast? with
  | some last => [last]
  | none => []

/-- `simplifyPath`'s loop: `simplifiedPath` and `withinProjectBuffer` are the
two accumulator arrays of the source; the buffer is flushed (last element
only) when a non-within-project name is met, and silently discarded when the
input ends. -/
def simplifyPathAux (withinProjectDependencies : List String)
    (simplifiedPath withinProjectBuffer : List String) : List String → List String
  | [] => simplifiedPath
  | node :: rest =>
    if withinProjectDependencies.contains node then
      simplifyPathAux withinProjectDependencies simplifiedPath
        (withinProjectBuffer ++ [node]) rest
    else
      simplifyPathAux withinProjectDependencies
        (simplifiedPath ++ flushBuffer withinProjectBuffer ++ [node]) [] rest

/-- `simplifyPath(path, withinProjectDependencies)`. -/
def simplifyPath (path withinProjectDependencies : List String) : List String :=
  simplifyPathAux withinProjectDependencies [] [] path

/-- Total `nodeCount` of the trees held in the explicit work stack of
`initializeQueueWithNestedDeps`: each loop iteration pops one node and
pushes its children, so this is exactly the number of iterations left. -/
def stackWeight : List (DepTree × List String) → Nat
  | [] => 0
  | (t, _) :: rest => nodeCount t + stackWeight rest

theorem stackWeight_append (a b : List (DepTree × List String)) :
    stackWeight (a ++ b) = stackWeight a + stackWeight b := by
  induction a with
  | nil => simp [stackWeight]
  | cons head tail ih =>
    obtain ⟨t, p⟩ := head
    simp [stackWeight, ih]
    omega

theorem stackWeight_reverse (a : List (DepTree × List String)) :
    stackWeight a.reverse = stackWeight a := by
  induction a with
  | nil => rfl
  | cons head tail ih =>
    obtain ⟨t, p⟩ := head
    simp [stackWeight, List.reverse_cons, stackWeight_append, ih]
    omega

theorem stackWeight_entries (deps : List (String × DepTree)) (f : String × DepTree → List String) :
    stackWeight (deps.map (fun dc => (dc.2, f dc))) =
      (deps.map (fun dc => nodeCount dc.2)).sum := by
  induction deps with
  | nil => rfl
  | cons head tail ih => simp [stackWeight, ih]

/-- `initializeQueueWithNestedDeps`'s while loop, driven by fuel (one unit
per iteration). The JS stack pops from the array's end, so the Lean list's
head is the stack top; a popped node pushes its children left to right,
leaving the **last** child on top, hence the `reverse`. Each child's
extended path is appended to the queue in key order. -/
def initQueueGo : Nat → List (DepTree × List String) → List (List String) → List (List String)
  | _, [], queue => queue
  | 0, _ :: _, queue => queue
  | fuel + 1, (DepTree.node deps, path) :: rest, queue =>
    initQueueGo fuel
      ((deps.toList.map (fun dc => (dc.2, path ++ [dc.1]))).reverse ++ rest)
      (queue ++ deps.toList.map (fun dc => path ++ [dc.1]))

/-- One iteration removes exactly one unit of stack weight. -/
theorem stackWeight_step (deps : DepList) (path : List String)
    (rest : List (DepTree × List String)) :
    stackWeight ((deps.toList.map (fun dc => (dc.2, path ++ [dc.1]))).reverse ++ rest) + 1 =
      stackWeight ((DepTree.node deps, path) :: rest) := by
  rw [stackWeight, stackWeight_append, stackWeight_reverse, stackWeight_entries,
    nodeCount_node]
  omega

/-- The fuel only needs to cover the stack weight: any two sufficient fuels
give the same queue, so `initializeQueueWithNestedDeps` below runs the loop
to stack exhaustion, exactly as the unfueled source loop does. -/
theorem initQueueGo_fuel (n : Nat) :
    ∀ (stack : List (DepTree × List String)) (queue : List (List String)) (m : Nat),
      stackWeight stack ≤ n → stackWeight stack ≤ m →
      initQueueGo n stack queue = initQueueGo m stack queue := by
  induction n with
  | zero =>
    intro stack queue m hn _
    cases stack with
    | nil => cases m <;> rfl
    | cons e rest =>
      exfalso
      obtain ⟨t, p⟩ := e
      have := nodeCount_pos t
      rw [stackWeight] at hn
      omega
  | succ n ih =>
    intro stack queue m hn hm
    cases stack with
    | nil => cases m <;> rfl
    | cons e rest =>
      obtain ⟨⟨deps⟩, p⟩ := e
      cases m with
      | zero =>
        exfalso
        have := nodeCount_pos (DepTree.node deps)
        rw [stackWeight] at hm
        omega
      | succ m =>
        rw [initQueueGo, initQueueGo]
        have hstep := stackWeight_step deps p rest
        apply ih
        · omega
        · omega

/-- `initializeQueueWithNestedDeps(dependencyTree)`: the queue pre-seeded
with every path from the root to a reachable node. `nodeCount` fuel is
exact: the loop pops each node of the tree exactly once. -/
def initializeQueueWithNestedDeps (dependencyTree : DepTree) : List (List String) :=
  initQueueGo (nodeCount dependencyTree) [(dependencyTree, [])] []

/-- JS map update `m[k] = v`: overwrite in place when the key exists
(keeping its position), append otherwise. -/
def setKey {α : Type} (m : List (String × α)) (k : String) (v : α) : List (String × α) :=
  match m with
  | [] => [(k, v)]
  | (k', v') :: rest => if k' = k then (k, v) :: rest else (k', v') :: setKey rest k v

/-- JS `Set.add`: append the name unless already present. -/
def addFound (found : List String) (n : String) : List String :=
  if found.contains n then found else found ++ [n]

/-- `vulnerabilityExposure[n] = (vulnerabilityExposure[n] || 0) + 1`. -/
def bumpExposure (m : List (String × Nat)) (n : String) : List (String × Nat) :=
  setKey m n (((m.lookup n).getD 0) + 1)

/-- The inputs `step6_constructPath` reads from the step1–step5 output files
(already decoded): the dependency tree and the classification data. -/
structure Config where
  dependencyTree : DepTree
  devDependencies : List String
  withinProjectDependencies : List String
  laggingDependencies : List String
  vulnerabilitiesData : List Finding
  releaseIntervals : List (String × Int)

/-- The mutable state of the `while (queue.length > 0)` loop. `trace` is a
ghost field recording, in order, the terminal name of every dequeued path
that reached classification; it influences nothing. -/
structure EngineState where
  queue : List (List String)
  foundVulnerableDeps : List String
  depsMap : List (String × DepRecord)
  paths : List (List String)
  vulnerabilityExposure : List (String × Nat)
  trace : List String
deriving DecidableEq

/-- One iteration of the traversal loop: dequeue the front path, skip a falsy
terminal name, classify and store the record, then either record a
vulnerability (no expansion), skip expansion for a development-only node, or
enqueue the extended path for every child not already found vulnerable. -/
def stepLoop (cfg : Config) (s : EngineState) : EngineState :=
  match s.queue with
  | [] => s
  | currentPath :: restQueue =>
    match currentPath.getLast? with
    | none => { s with queue := restQueue }
    | some currentNode =>
      if currentNode = "" then { s with queue := restQueue }
      else
        let record := classifyDependency currentNode cfg.devDependencies
          cfg.withinProjectDependencies cfg.laggingDependencies
          (vulnNames cfg.vulnerabilitiesData) cfg.vulnerabilitiesData cfg.releaseIntervals
        let depsMap' := setKey s.depsMap currentNode record
        let trace' := s.trace ++ [currentNode]
        if record.dependencyTypes.contains DependencyType.vulnerable then
          { queue := restQueue
            foundVulnerableDeps := addFound s.foundVulnerableDeps currentNode
            depsMap := depsMap'
            paths := s.paths ++ [simplifyPath currentPath cfg.withinProjectDependencies]
            vulnerabilityExposure := bumpExposure s.vulnerabilityExposure currentNode
            trace := trace' }
        else if record.dependencyTypes.contains DependencyType.developmentOnly then
          { s with queue := restQueue, depsMap := depsMap', trace := trace' }
        else
          { s with
            queue := restQueue ++
              ((findChildren cfg.dependencyTree currentPath).filter
                (fun child => !s.foundVulnerableDeps.contains child)).map
                (fun child => currentPath ++ [child])
            depsMap := depsMap'
            trace := trace' }

/-- Shorthand for the record `stepLoop` computes for the dequeued terminal
name. -/
def classifyFor (cfg : Config) (n : String) : DepRecord :=
  classifyDependency n cfg.devDependencies cfg.withinProjectDependencies
    cfg.laggingDependencies (vulnNames cfg.vulnerabilitiesData)
    cfg.vulnerabilitiesData cfg.releaseIntervals

/-- Weight of one queued path for the termination measure: twice the size of
the subtree it resolves to, or `1` when it resolves to nothing. -/
def pathWeight (t : DepTree) (p : List String) : Nat :=
  match resolve t p with
  | some n => 2 * nodeCount n
  | none => 1

/-- Termination measure of the loop: total weight of the queued paths. -/
def queueMeasure (t : DepTree) (q : List (List String)) : Nat :=
  (q.map (pathWeight t)).sum

/-- The traversal loop driven by explicit fuel; `queueMeasure` fuel is proved
sufficient below, so the engine runs the loop to queue exhaustion. -/
def runLoop (cfg : Config) : Nat → EngineState → EngineState
  | 0, s => s
  | n + 1, s =>
    match s.queue with
    | [] => s
    | _ :: _ => runLoop cfg n (stepLoop cfg s)

/-- The state at entry of the loop: the pre-seeded queue and empty report
structures. -/
def initState (cfg : Config) : EngineState :=
  { queue := initializeQueueWithNestedDeps cfg.dependencyTree
    foundVulnerableDeps := []
    depsMap := []
    paths := []
    vulnerabilityExposure := []
    trace := [] }

/-- The loop's final state: run with fuel equal to the measure of the
pre-seeded queue, which suffices to empty it (proved below). -/
def step6_loopState (cfg : Config) : EngineState :=
  runLoop cfg (queueMeasure cfg.dependencyTree (initState cfg).queue) (initState cfg)

/-- Per-path sort key of the final `report.paths.sort` comparator:
`a.map(node => report.dependencies[node]?.highestCvssScore || 0)
  .reduce((max, score) => Math.max(max, score), 0)`.
A present score of `-1` is truthy in JS and is kept; only a missing record
yields `0`; the `reduce` starts from `0`. -/
def pathScore (deps : List (String × DepRecord)) (p : List String) : Int :=
  (p.map (fun node =>
    match deps.lookup node with
    | some r => r.highestCvssScore
    | none => 0)).foldl max 0

/-- Stable insertion into a descending-sorted list: walk past strictly
greater keys, insert before the first key that is not greater (so an element
precedes equal keys that were originally after it). -/
def insertByKeyDesc {α : Type} (key : α → Int) (a : α) : List α → List α
  | [] => [a]
  | b :: bs => if key a < key b then b :: insertByKeyDesc key a bs else a :: b :: bs

/-- Stable sort by key, descending: the behaviour ECMAScript guarantees for
`Array.prototype.sort` with the comparator `(a, b) => keyB - keyA`. -/
def sortByKeyDesc {α : Type} (key : α → Int) : List α → List α
  | [] => []
  | a :: l => insertByKeyDesc key a (sortByKeyDesc key l)

/-- The serialized report:
`{ paths, dependencies, vulnerabilityExposure }`. -/
structure Report where
  paths : List (List String)
  dependencies : List (String × DepRecord)
  vulnerabilityExposure : List (String × Nat)
deriving DecidableEq

/-- `step6_constructPath` restricted to its computational content: run the
traversal loop to completion, then sort the recorded paths by descending
per-path score (file reading and writing excluded). -/
def step6_constructPath (cfg : Config) : Report :=
  let s := step6_loopState cfg
  { paths := sortByKeyDesc (pathScore s.depsMap) s.paths
    dependencies := s.depsMap
    vulnerabilityExposure := s.vulnerabilityExposure }

/-! ### Definitions that state the claims' vocabulary, and concrete inputs -/

/-- True when the report's record for `n` is tagged development-only and not
vulnerable. -/
def recordDevOnlyNotVulnerable (deps : List (String × DepRecord)) (n : String) : Bool :=
  match deps.lookup n with
  | some r => r.dependencyTypes.contains DependencyType.developmentOnly &&
      !(r.dependencyTypes.contains DependencyType.vulnerable)
  | none => false

/-- True when the report's record for `n` carries the development-only or the
vulnerable tag. -/
def recordDevOnlyOrVulnerable (deps : List (String × DepRecord)) (n : String) : Bool :=
  match deps.lookup n with
  | some r => r.dependencyTypes.contains DependencyType.developmentOnly ||
      r.dependencyTypes.contains DependencyType.vulnerable
  | none => false

/-- The pruning property claimed of the output: in every output path, every
name strictly beyond a development-only, non-vulnerable name is itself
development-only or vulnerable. -/
def noNamesBeyondDevOnly (rep : Report) : Prop :=
  ∀ p ∈ rep.paths, ∀ (i j : Nat) (a b : String), i < j →
    p.get? i = some a → p.get? j = some b →
    recordDevOnlyNotVulnerable rep.dependencies a = true →
    recordDevOnlyOrVulnerable rep.dependencies b = true

/-- Maximum of a list of integers, `0` for the empty list (a path whose
nodes all lack records contributes `0`, per the specification). -/
def intListMax : List Int → Int
  | [] => 0
  | [x] => x
  | x :: rest => max x (intListMax rest)

/-- The sort key the claim describes: the maximum `highestCvssScore` among a
path's constituent names' records (a missing record contributing `0`),
without the clamping the code's `reduce(…, 0)` applies. -/
def claimPathMax (deps : List (String × DepRecord)) (p : List String) : Int :=
  intListMax (p.map (fun n =>
    match deps.lookup n with
    | some r => r.highestCvssScore
    | none => 0))

/-- The ranking property claimed of the output: any earlier path's
record-maximum is at least any later path's record-maximum. -/
def claimSortedByRecordMax (rep : Report) : Prop :=
  ∀ (i j : Nat) (A B : List String), i < j →
    rep.paths.get? i = some A → rep.paths.get? j = some B →
    claimPathMax rep.dependencies B ≤ claimPathMax rep.dependencies A

/-- Remove `pat` from the end of `l` when `l` ends with it (the claim's
"suffix stripping", as opposed to the code's first-occurrence `replace`). -/
def dropSuffix (pat l : List Char) : List Char :=
  if pat.isSuffixOf l then l.take (l.length - pat.length) else l

/-- The matching name the claim describes for the CVSS maximum: the finding's
`subjectName` with the `.js` and `.min` suffixes stripped. -/
def claimStrippedName (s : String) : String :=
  ⟨dropSuffix ".min".toList (dropSuffix ".js".toList s.toList)⟩

/-- The CVSS maximum as the claim describes it: over findings whose
suffix-stripped name has the dependency name as a string prefix. -/
def claimHighestCvssScore (dependency : String) (data : List Finding) : Int :=
  let relevant := data.filter (fun e =>
    dependency.toList.isPrefixOf (claimStrippedName e.fileName).toList)
  ((relevant.map (fun e => e.vulnerabilities.map (fun v => v.cvss))).flatten).foldl max (-1)

/-- The scores `getHighestCvssScoreForDependency` actually maximises over:
all CVSS entries of findings whose raw `fileName` starts with the name. -/
def matchingScores (dependency : String) (data : List Finding) : List Int :=
  ((data.filter (fun e => dependency.toList.isPrefixOf e.fileName.toList)).map
    (fun e => e.vulnerabilities.map (fun v => v.cvss))).flatten

/-- A leaf node: a dependency with no `dependencies` of its own. -/
def leaf : DepTree := DepTree.node DepList.nil

/-- A three-deep chain `a → b → c` with no classifications at all. -/
def cfgChain : Config :=
  { dependencyTree := DepTree.node (depListOf [("a", DepTree.node (depListOf [("b", DepTree.node (depListOf [("c", leaf)]))]))])
    devDependencies := []
    withinProjectDependencies := []
    laggingDependencies := []
    vulnerabilitiesData := []
    releaseIntervals := [] }

/-- A chain `D → M → X` where `D` is development-only and `X` is reported
vulnerable; `M` is an ordinary dependency between them. -/
def cfgDevChain : Config :=
  { dependencyTree := DepTree.node (depListOf [("D", DepTree.node (depListOf [("M", DepTree.node (depListOf [("X", leaf)]))]))])
    devDependencies := ["D"]
    withinProjectDependencies := []
    laggingDependencies := []
    vulnerabilitiesData := [{ fileName := "X", vulnerabilities := [⟨"s", "n", "sev", 5⟩] }]
    releaseIntervals := [] }

/-- Two root dependencies: `x` is tagged vulnerable through the stripped name
of the finding `.jsx` but its raw-prefix CVSS maximum is `-1`; `y` is tagged
vulnerable with CVSS maximum `0`. -/
def cfgTwoVuln : Config :=
  { dependencyTree := DepTree.node (depListOf [("x", leaf), ("y", leaf)])
    devDependencies := []
    withinProjectDependencies := []
    laggingDependencies := []
    vulnerabilitiesData := [{ fileName := ".jsx", vulnerabilities := [⟨"s", "n", "sev", 9⟩] },
                            { fileName := "y", vulnerabilities := [⟨"s", "n", "sev", 0⟩] }]
    releaseIntervals := [] }

/-- A single vulnerable root dependency `v` with CVSS 3. -/
def cfgOneVuln : Config :=
  { dependencyTree := DepTree.node (depListOf [("v", leaf)])
    devDependencies := []
    withinProjectDependencies := []
    laggingDependencies := []
    vulnerabilitiesData := [{ fileName := "v", vulnerabilities := [⟨"s", "n", "sev", 3⟩] }]
    releaseIntervals := [] }

/-- One finding whose stripped name is `x` but whose raw name does not start
with `x`. -/
def dataTagNoScore : List Finding :=
  [{ fileName := ".jsx", vulnerabilities := [⟨"s", "n", "sev", 9⟩] }]

/-- One finding for `lodash`: its raw name starts with `lo`, but its stripped
name is not equal to `lo`. -/
def dataScoreNoTag : List Finding :=
  [{ fileName := "lodash", vulnerabilities := [⟨"s", "n", "sev", 5⟩] }]

/-! ### Lemmas about `simplifyPath` -/

theorem flushBuffer_nil : flushBuffer [] = [] := rfl

theorem flushBuffer_concat (l : List String) (a : String) :
    flushBuffer (l ++ [a]) = [a] := by
  simp [flushBuffer, List.getLast?_concat]

theorem flushBuffer_length (l : List String) : (flushBuffer l).length ≤ 1 := by
  unfold flushBuffer
  cases l.getLast? <;> simp

theorem flushBuffer_subset (l : List String) :
    ∀ b ∈ flushBuffer l, b ∈ l := by
  unfold flushBuffer
  cases h : l.getLast? with
  | some last =>
    intro b hb
    simp only [List.mem_singleton] at hb
    subst hb
    exact List.mem_of_mem_getLast? h
  | none => intro b hb; simp at hb

theorem simplifyPathAux_acc (w : List String) (p : List String) :
    ∀ acc buf, simplifyPathAux w acc buf p = acc ++ simplifyPathAux w [] buf p := by
  induction p with
  | nil => intro acc buf; simp [simplifyPathAux]
  | cons n rest ih =>
    intro acc buf
    by_cases h : w.contains n
    · simp only [simplifyPathAux, h, if_pos]
      rw [ih acc]
    · simp only [simplifyPathAux, h, Bool.false_eq_true, if_false]
      rw [ih (acc ++ flushBuffer buf ++ [n]), ih ([] ++ flushBuffer buf ++ [n])]
      simp

theorem simplifyPathAux_all_within (w : List String) (p : List String)
    (h : ∀ n ∈ p, w.contains n = true) :
    ∀ buf, simplifyPathAux w [] buf p = [] := by
  induction p with
  | nil => intro buf; rfl
  | cons n rest ih =>
    intro buf
    have hn : w.contains n = true := h n (List.mem_cons_self n rest)
    simp only [simplifyPathAux, hn, if_pos]
    exact ih (fun m hm => h m (List.mem_cons_of_mem n hm)) (buf ++ [n])

theorem simplifyPathAux_run (w : List String) (x : String) (rest : List String)
    (hx : w.contains x = false) :
    ∀ (r buf : List String), (∀ n ∈ r, w.contains n = true) →
      simplifyPathAux w [] buf (r ++ x :: rest) =
        flushBuffer (buf ++ r) ++ x :: simplifyPathAux w [] [] rest := by
  intro r
  induction r with
  | nil =>
    intro buf _
    simp only [List.nil_append, List.append_nil, simplifyPathAux, hx, Bool.false_eq_true,
      if_false]
    rw [simplifyPathAux_acc]
    simp
  | cons a r' ih =>
    intro buf hr
    have ha : w.contains a = true := hr a (List.mem_cons_self a r')
    simp only [List.cons_append, List.append_eq, simplifyPathAux, ha, if_pos]
    rw [ih (buf ++ [a]) (fun m hm => hr m (List.mem_cons_of_mem a hm))]
    rw [List.append_assoc]
    rfl

theorem flushBuffer_length_bonus (l : List String) :
    (flushBuffer l).length ≤ (if l = [] then 0 else 1) := by
  cases l with
  | nil => simp [flushBuffer]
  | cons c cs =>
    have := flushBuffer_length (c :: cs)
    simp only [List.cons_ne_nil, if_neg, ite_false]
    exact this

theorem simplifyPathAux_length (w : List String) (p : List String) :
    ∀ buf, (simplifyPathAux w [] buf p).length ≤
      (if buf = [] then 0 else 1) + p.length := by
  induction p with
  | nil =>
    intro buf
    simp only [simplifyPathAux, List.length_nil]
    omega
  | cons n rest ih =>
    intro buf
    by_cases h : w.contains n
    · simp only [simplifyPathAux, h, if_pos]
      have h1 := ih (buf ++ [n])
      have h2 : buf ++ [n] ≠ [] := by simp
      rw [if_neg h2] at h1
      simp only [List.length_cons]
      split <;> omega
    · simp only [simplifyPathAux, h, Bool.false_eq_true, if_false]
      rw [simplifyPathAux_acc]
      have h1 := ih []
      rw [if_pos rfl] at h1
      have h2 := flushBuffer_length_bonus buf
      simp only [List.length_append, List.length_cons, List.length_nil, List.nil_append]
      split at h2 <;> split <;> simp_all <;> omega

theorem simplifyPathAux_filter (w : List String) (p : List String) :
    ∀ buf, (∀ b ∈ buf, w.contains b = true) →
      (simplifyPathAux w [] buf p).filter (fun n => !(w.contains n)) =
        p.filter (fun n => !(w.contains n)) := by
  induction p with
  | nil => intro buf _; rfl
  | cons n rest ih =>
    intro buf hbuf
    by_cases h : w.contains n
    · have hmem : n ∈ w := by simpa using h
      simp only [simplifyPathAux, h, if_pos]
      rw [ih (buf ++ [n])]
      · rw [List.filter_cons]
        simp [hmem]
      · intro b hb
        rcases List.mem_append.mp hb with hb | hb
        · exact hbuf b hb
        · simp only [List.mem_singleton] at hb; subst hb; exact h
    · have hmem : n ∉ w := by simpa using h
      simp only [simplifyPathAux, h, Bool.false_eq_true, if_false]
      rw [simplifyPathAux_acc]
      rw [List.filter_append, ih [] (by intro b hb; simp at hb)]
      have hflush : (flushBuffer buf).filter (fun n => !(w.contains n)) = [] := by
        rw [List.filter_eq_nil_iff]
        intro b hb
        have hbw : b ∈ w := by simpa using hbuf b (flushBuffer_subset buf b hb)
        simp [hbw]
      rw [List.filter_append, List.filter_append, hflush]
      rw [List.filter_cons]
      simp [hmem]

/-! ### Lemmas about `resolve`, `findChildren`, well-formed trees and the
termination measure -/

theorem keys_eq_toList : (deps : DepList) → DepList.keys deps = deps.toList.map Prod.fst
  | .nil => rfl
  | .cons d c rest => by
    rw [DepList.keys, DepList.toList, List.map_cons, keys_eq_toList rest]

theorem lookup_mem : (deps : DepList) → (d : String) → (c : DepTree) →
    DepList.lookup d deps = some c → (d, c) ∈ deps.toList
  | .nil, d, c, h => by simp [DepList.lookup] at h
  | .cons k v rest, d, c, h => by
    rw [DepList.lookup] at h
    by_cases hk : k = d
    · rw [if_pos hk] at h
      injection h with h
      subst h
      subst hk
      exact List.mem_cons_self _ _
    · rw [if_neg hk] at h
      exact List.mem_cons_of_mem _ (lookup_mem rest d c h)

theorem keysNodup_lookup : (deps : DepList) → (d : String) → (c : DepTree) →
    keysNodup deps = true → (d, c) ∈ deps.toList → DepList.lookup d deps = some c
  | .nil, d, c, hn, hm => by simp [DepList.toList] at hm
  | .cons k v rest, d, c, hn, hm => by
    rw [keysNodup, Bool.and_eq_true] at hn
    rw [DepList.toList] at hm
    rw [DepList.lookup]
    rcases List.mem_cons.mp hm with h | h
    · injection h with h1 h2
      subst h1
      subst h2
      rw [if_pos rfl]
    · have hk : k ≠ d := by
        intro hkd
        subst hkd
        have hmem : k ∈ DepList.keys rest := by
          rw [keys_eq_toList]
          exact List.mem_map_of_mem Prod.fst h
        have hcon : (DepList.keys rest).contains k = true := List.elem_iff.mpr hmem
        rw [hcon] at hn
        simp at hn
      rw [if_neg hk]
      exact keysNodup_lookup rest d c hn.2 h

theorem treeWFList_keysNodup : (deps : DepList) →
    treeWFList deps = true → keysNodup deps = true
  | .nil, _ => rfl
  | .cons d (DepTree.node l) rest, h => by
    rw [treeWFList, Bool.and_eq_true, Bool.and_eq_true] at h
    rw [keysNodup, Bool.and_eq_true]
    exact ⟨h.1.1, treeWFList_keysNodup rest h.2⟩

theorem treeWFList_child : (deps : DepList) → (d : String) → (c : DepTree) →
    treeWFList deps = true → (d, c) ∈ deps.toList → treeWF c = true
  | .nil, d, c, h, hm => by simp [DepList.toList] at hm
  | .cons k (DepTree.node l) rest, d, c, h, hm => by
    rw [treeWFList, Bool.and_eq_true, Bool.and_eq_true] at h
    rw [DepList.toList] at hm
    rcases List.mem_cons.mp hm with hh | hh
    · injection hh with h1 h2
      subst h2
      rw [treeWF]
      exact h.1.2
    · exact treeWFList_child rest d c h.2 hh

theorem treeWF_resolve (p : List String) :
    ∀ (t n : DepTree), treeWF t = true → resolve t p = some n → treeWF n = true := by
  induction p with
  | nil =>
    intro t n hwf hr
    rw [resolve] at hr
    injection hr with hr
    subst hr
    exact hwf
  | cons d rest ih =>
    intro t n hwf hr
    obtain ⟨deps⟩ := t
    rw [treeWF] at hwf
    rw [resolve] at hr
    cases hl : deps.lookup d with
    | some child =>
      rw [hl] at hr
      exact ih child n (treeWFList_child deps d child hwf (lookup_mem deps d child hl)) hr
    | none => rw [hl] at hr; exact absurd hr (by simp)

theorem findChildren_eq_resolve (p : List String) : ∀ t : DepTree,
    findChildren t p =
      (match resolve t p with
       | some (DepTree.node deps) => deps.keys
       | none => []) := by
  induction p with
  | nil => intro t; obtain ⟨deps⟩ := t; rfl
  | cons d rest ih =>
    intro t
    obtain ⟨deps⟩ := t
    rw [findChildren, resolve]
    cases hl : deps.lookup d with
    | some child => exact ih child
    | none => rfl

theorem resolve_append (p : List String) (d : String) : ∀ t : DepTree,
    resolve t (p ++ [d]) =
      (match resolve t p with
       | some (DepTree.node deps) => deps.lookup d
       | none => none) := by
  induction p with
  | nil =>
    intro t
    obtain ⟨deps⟩ := t
    simp only [List.nil_append, resolve]
    cases hl : deps.lookup d with
    | some child => simp [resolve]
    | none => rfl
  | cons e rest ih =>
    intro t
    obtain ⟨deps⟩ := t
    simp only [List.cons_append, resolve]
    cases hl : deps.lookup e with
    | some child => exact ih child
    | none => rfl

theorem sum_map_filter_le {α : Type} (f : α → Nat) (q : α → Bool) (l : List α) :
    ((l.filter q).map f).sum ≤ (l.map f).sum := by
  induction l with
  | nil => simp
  | cons a rest ih =>
    rw [List.filter_cons]
    by_cases h : q a
    · rw [if_pos h]
      simp only [List.map_cons, List.sum_cons]
      omega
    · rw [if_neg h]
      simp only [List.map_cons, List.sum_cons]
      omega

theorem queueMeasure_append (t : DepTree) (a b : List (List String)) :
    queueMeasure t (a ++ b) = queueMeasure t a + queueMeasure t b := by
  simp [queueMeasure]

theorem queueMeasure_cons (t : DepTree) (p : List String) (rest : List (List String)) :
    queueMeasure t (p :: rest) = pathWeight t p + queueMeasure t rest := by
  simp [queueMeasure]

theorem pathWeight_of_resolve_some (t : DepTree) (p : List String) (n : DepTree)
    (h : resolve t p = some n) : pathWeight t p = 2 * nodeCount n := by
  unfold pathWeight
  rw [h]

theorem pathWeight_of_resolve_none (t : DepTree) (p : List String)
    (h : resolve t p = none) : pathWeight t p = 1 := by
  unfold pathWeight
  rw [h]

theorem findChildren_of_resolve_some (t : DepTree) (p : List String)
    (deps : DepList) (h : resolve t p = some (DepTree.node deps)) :
    findChildren t p = deps.keys := by
  rw [findChildren_eq_resolve, h]

theorem findChildren_of_resolve_none (t : DepTree) (p : List String)
    (h : resolve t p = none) : findChildren t p = [] := by
  rw [findChildren_eq_resolve, h]

theorem pathWeight_pos (t : DepTree) (p : List String) : 1 ≤ pathWeight t p := by
  cases h : resolve t p with
  | some n =>
    rw [pathWeight_of_resolve_some t p n h]
    have := nodeCount_pos n
    omega
  | none => rw [pathWeight_of_resolve_none t p h]

theorem sum_two_mul {α : Type} (f : α → Nat) (l : List α) :
    (l.map (fun x => 2 * f x)).sum = 2 * (l.map f).sum := by
  induction l with
  | nil => simp
  | cons head tail ih => simp only [List.map_cons, List.sum_cons, ih]; omega

/-- Total weight enqueued by one expansion step is strictly below the weight
of the expanded path: the children of a resolvable path resolve to the
subtrees of its node, and their sizes sum to less than the node's size. -/
theorem expansion_bound (t : DepTree) (hwf : treeWF t = true) (p : List String)
    (found : List String) :
    queueMeasure t (((findChildren t p).filter
        (fun child => !found.contains child)).map (fun child => p ++ [child])) <
      pathWeight t p := by
  cases hres : resolve t p with
  | none =>
    rw [findChildren_of_resolve_none t p hres]
    simp only [List.filter_nil, List.map_nil]
    have h0 : queueMeasure t [] = 0 := rfl
    rw [h0]
    exact pathWeight_pos t p
  | some node =>
    obtain ⟨deps⟩ := node
    rw [findChildren_of_resolve_some t p deps hres]
    have hwfn := treeWF_resolve p t _ hwf hres
    rw [treeWF] at hwfn
    have hnodup : keysNodup deps = true := treeWFList_keysNodup deps hwfn
    have hw : ∀ dc ∈ deps.toList, pathWeight t (p ++ [dc.1]) = 2 * nodeCount dc.2 := by
      intro dc hm
      have : resolve t (p ++ [dc.1]) = some dc.2 := by
        rw [resolve_append, hres]
        exact keysNodup_lookup deps dc.1 dc.2 hnodup hm
      exact pathWeight_of_resolve_some t _ dc.2 this
    have hsum : (deps.toList.map (fun dc => 2 * nodeCount dc.2)).sum =
        2 * (deps.toList.map (fun dc => nodeCount dc.2)).sum :=
      sum_two_mul (fun dc => nodeCount dc.2) deps.toList
    rw [keys_eq_toList]
    calc queueMeasure t (((deps.toList.map Prod.fst).filter
            (fun child => !found.contains child)).map (fun child => p ++ [child]))
        = ((((deps.toList.map Prod.fst).filter (fun child => !found.contains child)).map
            (fun child => p ++ [child])).map (pathWeight t)).sum := rfl
      _ = (((deps.toList.map Prod.fst).filter (fun child => !found.contains child)).map
            (fun child => pathWeight t (p ++ [child]))).sum := by
            rw [List.map_map]; rfl
      _ ≤ ((deps.toList.map Prod.fst).map (fun child => pathWeight t (p ++ [child]))).sum :=
            sum_map_filter_le _ _ _
      _ = (deps.toList.map (fun dc => pathWeight t (p ++ [dc.1]))).sum := by
            rw [List.map_map]; rfl
      _ = (deps.toList.map (fun dc => 2 * nodeCount dc.2)).sum :=
            congrArg List.sum (List.map_congr_left hw)
      _ < pathWeight t p := by
            rw [pathWeight_of_resolve_some t p _ hres, nodeCount_node, hsum]
            omega

/-! ### Branch equations for `stepLoop` -/

theorem stepLoop_skip_none (cfg : Config) (p : List String) (rest : List (List String))
    (f : List String) (dm : List (String × DepRecord)) (ps : List (List String))
    (ex : List (String × Nat)) (tr : List String) (hl : p.getLast? = none) :
    stepLoop cfg ⟨p :: rest, f, dm, ps, ex, tr⟩ = ⟨rest, f, dm, ps, ex, tr⟩ := by
  simp only [stepLoop, hl]

theorem stepLoop_skip_empty (cfg : Config) (p : List String) (rest : List (List String))
    (f : List String) (dm : List (String × DepRecord)) (ps : List (List String))
    (ex : List (String × Nat)) (tr : List String) (hl : p.getLast? = some "") :
    stepLoop cfg ⟨p :: rest, f, dm, ps, ex, tr⟩ = ⟨rest, f, dm, ps, ex, tr⟩ := by
  simp only [stepLoop, hl, if_pos]

theorem stepLoop_vulnerable (cfg : Config) (p : List String) (rest : List (List String))
    (f : List String) (dm : List (String × DepRecord)) (ps : List (List String))
    (ex : List (String × Nat)) (tr : List String) (n : String)
    (hl : p.getLast? = some n) (hne : n ≠ "")
    (hv : (classifyFor cfg n).dependencyTypes.contains DependencyType.vulnerable = true) :
    stepLoop cfg ⟨p :: rest, f, dm, ps, ex, tr⟩ =
      ⟨rest, addFound f n, setKey dm n (classifyFor cfg n),
        ps ++ [simplifyPath p cfg.withinProjectDependencies],
        bumpExposure ex n, tr ++ [n]⟩ := by
  simp only [classifyFor] at hv ⊢
  simp only [stepLoop, hl, if_neg hne, hv, if_true]

theorem stepLoop_devOnly (cfg : Config) (p : List String) (rest : List (List String))
    (f : List String) (dm : List (String × DepRecord)) (ps : List (List String))
    (ex : List (String × Nat)) (tr : List String) (n : String)
    (hl : p.getLast? = some n) (hne : n ≠ "")
    (hv : (classifyFor cfg n).dependencyTypes.contains DependencyType.vulnerable = false)
    (hd : (classifyFor cfg n).dependencyTypes.contains DependencyType.developmentOnly = true) :
    stepLoop cfg ⟨p :: rest, f, dm, ps, ex, tr⟩ =
      ⟨rest, f, setKey dm n (classifyFor cfg n), ps, ex, tr ++ [n]⟩ := by
  simp only [classifyFor] at hv hd ⊢
  simp only [stepLoop, hl, if_neg hne, hv, hd, Bool.false_eq_true, if_false, if_true]

theorem stepLoop_expand (cfg : Config) (p : List String) (rest : List (List String))
    (f : List String) (dm : List (String × DepRecord)) (ps : List (List String))
    (ex : List (String × Nat)) (tr : List String) (n : String)
    (hl : p.getLast? = some n) (hne : n ≠ "")
    (hv : (classifyFor cfg n).dependencyTypes.contains DependencyType.vulnerable = false)
    (hd : (classifyFor cfg n).dependencyTypes.contains DependencyType.developmentOnly = false) :
    stepLoop cfg ⟨p :: rest, f, dm, ps, ex, tr⟩ =
      ⟨rest ++ ((findChildren cfg.dependencyTree p).filter
          (fun child => !f.contains child)).map (fun child => p ++ [child]),
        f, setKey dm n (classifyFor cfg n), ps, ex, tr ++ [n]⟩ := by
  simp only [classifyFor] at hv hd ⊢
  simp only [stepLoop, hl, if_neg hne, hv, hd, Bool.false_eq_true, if_false]

/-- Each loop iteration on a non-empty queue strictly decreases the queue
measure. -/
theorem stepLoop_decreases (cfg : Config) (hwf : treeWF cfg.dependencyTree = true)
    (s : EngineState) (h : s.queue ≠ []) :
    queueMeasure cfg.dependencyTree (stepLoop cfg s).queue <
      queueMeasure cfg.dependencyTree s.queue := by
  obtain ⟨q, f, dm, ps, ex, tr⟩ := s
  cases hq : q with
  | nil => exact absurd hq h
  | cons p rest =>
    subst hq
    have hpos := pathWeight_pos cfg.dependencyTree p
    rw [queueMeasure_cons]
    cases hl : p.getLast? with
    | none =>
      rw [stepLoop_skip_none cfg p rest f dm ps ex tr hl]
      dsimp only
      omega
    | some n =>
      by_cases hne : n = ""
      · subst hne
        rw [stepLoop_skip_empty cfg p rest f dm ps ex tr hl]
        dsimp only
        omega
      · by_cases hv : (classifyFor cfg n).dependencyTypes.contains DependencyType.vulnerable
        · rw [stepLoop_vulnerable cfg p rest f dm ps ex tr n hl hne hv]
          dsimp only
          omega
        · have hv' := Bool.of_not_eq_true hv
          by_cases hd : (classifyFor cfg n).dependencyTypes.contains DependencyType.developmentOnly
          · rw [stepLoop_devOnly cfg p rest f dm ps ex tr n hl hne hv' hd]
            dsimp only
            omega
          · have hd' := Bool.of_not_eq_true hd
            rw [stepLoop_expand cfg p rest f dm ps ex tr n hl hne hv' hd']
            dsimp only
            simp only [queueMeasure_append]
            have := expansion_bound cfg.dependencyTree hwf p f
            omega

/-- With fuel at least the queue measure, the loop drains the queue. -/
theorem runLoop_drains (cfg : Config) (hwf : treeWF cfg.dependencyTree = true) :
    ∀ (n : Nat) (s : EngineState),
      queueMeasure cfg.dependencyTree s.queue ≤ n → (runLoop cfg n s).queue = [] := by
  intro n
  induction n with
  | zero =>
    intro s hm
    cases hq : s.queue with
    | nil => rw [runLoop]; exact hq
    | cons p rest =>
      exfalso
      have := pathWeight_pos cfg.dependencyTree p
      rw [hq, queueMeasure_cons] at hm
      omega
  | succ n ih =>
    intro s hm
    rw [runLoop]
    cases hq : s.queue with
    | nil => exact hq
    | cons p rest =>
      have hdec := stepLoop_decreases cfg hwf s (by rw [hq]; simp)
      rw [hq] at hm
      rw [hq, queueMeasure_cons] at hdec
      apply ih
      rw [queueMeasure_cons] at hm
      omega

/-! ### Lemmas about the stable descending sort -/

theorem mem_insertByKeyDesc {α : Type} (key : α → Int) (a x : α) (l : List α) :
    x ∈ insertByKeyDesc key a l ↔ x = a ∨ x ∈ l := by
  induction l with
  | nil => simp [insertByKeyDesc]
  | cons b bs ih =>
    rw [insertByKeyDesc]
    by_cases h : key a < key b
    · rw [if_pos h]
      simp only [List.mem_cons, ih]
      tauto
    · rw [if_neg h]
      simp only [List.mem_cons]

theorem pairwise_insertByKeyDesc {α : Type} (key : α → Int) (a : α) (l : List α)
    (h : l.Pairwise (fun x y => key y ≤ key x)) :
    (insertByKeyDesc key a l).Pairwise (fun x y => key y ≤ key x) := by
  induction l with
  | nil => simp [insertByKeyDesc]
  | cons b bs ih =>
    rw [List.pairwise_cons] at h
    rw [insertByKeyDesc]
    by_cases hab : key a < key b
    · rw [if_pos hab]
      rw [List.pairwise_cons]
      refine ⟨?_, ih h.2⟩
      intro x hx
      rcases (mem_insertByKeyDesc key a x bs).mp hx with hx | hx
      · subst hx; omega
      · exact h.1 x hx
    · rw [if_neg hab]
      rw [List.pairwise_cons]
      constructor
      · intro x hx
        rcases List.mem_cons.mp hx with hx | hx
        · subst hx; omega
        · have := h.1 x hx; omega
      · exact List.pairwise_cons.mpr h

theorem sortByKeyDesc_pairwise {α : Type} (key : α → Int) (l : List α) :
    (sortByKeyDesc key l).Pairwise (fun x y => key y ≤ key x) := by
  induction l with
  | nil => simp [sortByKeyDesc]
  | cons a rest ih => exact pairwise_insertByKeyDesc key a _ ih

theorem filter_insertByKeyDesc {α : Type} (key : α → Int) (a : α) (k : Int) (l : List α) :
    (insertByKeyDesc key a l).filter (fun x => key x == k) =
      if key a = k then a :: l.filter (fun x => key x == k)
      else l.filter (fun x => key x == k) := by
  induction l with
  | nil =>
    rw [insertByKeyDesc]
    by_cases h : key a = k
    · rw [if_pos h]
      simp [List.filter_cons, h]
    · rw [if_neg h]
      simp [List.filter_cons, h]
  | cons b bs ih =>
    rw [insertByKeyDesc]
    by_cases hab : key a < key b
    · rw [if_pos hab, List.filter_cons, ih]
      by_cases hb : key b = k <;> by_cases ha : key a = k <;>
        first
        | (exfalso; omega)
        | simp [List.filter_cons, hb, ha]
    · rw [if_neg hab]
      by_cases ha : key a = k <;> simp [List.filter_cons, ha]

theorem sortByKeyDesc_filter {α : Type} (key : α → Int) (k : Int) (l : List α) :
    (sortByKeyDesc key l).filter (fun x => key x == k) =
      l.filter (fun x => key x == k) := by
  induction l with
  | nil => rfl
  | cons a rest ih =>
    rw [sortByKeyDesc, filter_insertByKeyDesc, List.filter_cons]
    by_cases ha : key a = k
    · rw [if_pos ha, ih]
      simp [ha]
    · rw [if_neg ha, ih]
      simp [ha]

theorem sorted_get? {α : Type} (key : α → Int) (l : List α)
    (h : l.Pairwise (fun x y => key y ≤ key x)) (i j : Nat) (hij : i < j)
    (A B : α) (hA : l.get? i = some A) (hB : l.get? j = some B) : key B ≤ key A := by
  obtain ⟨hi, hAi⟩ := List.get?_eq_some.mp hA
  obtain ⟨hj, hBj⟩ := List.get?_eq_some.mp hB
  subst hAi
  subst hBj
  exact List.pairwise_iff_get.mp h ⟨i, hi⟩ ⟨j, hj⟩ hij

/-! ### Lemmas about `foldl max` (for the CVSS maximum) -/

theorem foldl_max_init_le (l : List Int) (a : Int) : a ≤ l.foldl max a := by
  induction l generalizing a with
  | nil => simp
  | cons x rest ih =>
    rw [List.foldl_cons]
    have := ih (max a x)
    have : a ≤ max a x := le_max_left a x
    calc a ≤ max a x := le_max_left a x
      _ ≤ rest.foldl max (max a x) := ih (max a x)

theorem foldl_max_le_of_mem (l : List Int) (a : Int) :
    ∀ x ∈ l, x ≤ l.foldl max a := by
  induction l generalizing a with
  | nil => simp
  | cons y rest ih =>
    intro x hx
    rw [List.foldl_cons]
    rcases List.mem_cons.mp hx with hx | hx
    · subst hx
      calc x ≤ max a x := le_max_right a x
        _ ≤ rest.foldl max (max a x) := foldl_max_init_le rest (max a x)
    · exact ih (max a y) x hx

theorem foldl_max_mem (l : List Int) (a : Int) :
    l.foldl max a = a ∨ l.foldl max a ∈ l := by
  induction l generalizing a with
  | nil => simp
  | cons y rest ih =>
    rw [List.foldl_cons]
    rcases ih (max a y) with h | h
    · rcases le_total a y with hy | hy
      · right
        rw [h, max_eq_right hy]
        exact List.mem_cons_self y rest
      · left
        rw [h, max_eq_left hy]
    · right
      exact List.mem_cons_of_mem y h

/-! ### Claim C1 -/

/-- C1 counterexample: a within-project run that ends the path is not flushed
at end of input — it is dropped entirely. The claim predicts
`simplifyPath ["A"] ["A"] = ["A"]` (the run's last element); the code
returns `[]`. -/
theorem C1_counterexample : simplifyPath ["A"] ["A"] = [] := rfl

/-- C1 (amended): `simplifyPath` walks left to right buffering within-project
names; a buffered run is flushed to its last element only when a
non-within-project name follows it, non-within-project names are preserved
with their multiplicities and relative order, the output is never longer
than the input, and a within-project run that reaches the end of the path is
discarded (it emits nothing, not one element). -/
theorem C1_claim :
    (∀ (p w : List String), (simplifyPath p w).length ≤ p.length) ∧
    (∀ (p w : List String), (simplifyPath p w).filter (fun n => !(w.contains n)) =
      p.filter (fun n => !(w.contains n))) ∧
    (∀ (w r : List String) (x : String) (rest : List String) (b : String),
      (∀ n ∈ r, w.contains n = true) → w.contains x = false → r.getLast? = some b →
      simplifyPath (r ++ x :: rest) w = b :: x :: simplifyPath rest w) ∧
    (∀ (w p : List String), (∀ n ∈ p, w.contains n = true) → simplifyPath p w = []) := by
  refine ⟨?_, ?_, ?_, ?_⟩
  · intro p w
    have := simplifyPathAux_length w p []
    rw [if_pos rfl] at this
    simpa [simplifyPath] using this
  · intro p w
    exact simplifyPathAux_filter w p [] (by intro b hb; simp at hb)
  · intro w r x rest b hr hx hb
    unfold simplifyPath
    rw [simplifyPathAux_run w x rest hx r [] hr]
    rw [List.nil_append]
    unfold flushBuffer
    rw [hb]
    rfl
  · intro w p h
    exact simplifyPathAux_all_within w p h []

/-- C1 witness: the amended claim evaluated on the specification's own
collapsing example `["A","C","B"]` with within-project set `{A, C}`, and the
dropped trailing run `["A"]`. -/
theorem C1_witness :
    simplifyPath (["A", "C"] ++ "B" :: []) ["A", "C"] =
      "C" :: "B" :: simplifyPath [] ["A", "C"] ∧
    simplifyPath ["A", "C"] ["A", "C"] = [] := by
  constructor
  · exact C1_claim.2.2.1 ["A", "C"] ["A", "C"] "B" [] "C"
      (by decide) (by decide) (by decide)
  · exact C1_claim.2.2.2 ["A", "C"] ["A", "C"] (by decide)

/-! ### Claim C2 -/

/-- C2 counterexample: because the queue is pre-seeded with every
root-to-node path, the path `D → M → X` (with `D` development-only and not
vulnerable, `M` neither development-only nor vulnerable) still reaches the
output when its terminal `X` is vulnerable, so the output does contain a
name strictly beyond a development-only node. -/
theorem C2_counterexample : ¬ noNamesBeyondDevOnly (step6_constructPath cfgDevChain) := by
  intro h
  have hp : (step6_constructPath cfgDevChain).paths =
      [["D", "M", "X"], ["D", "M", "X"]] := by decide
  have hmem : ["D", "M", "X"] ∈ (step6_constructPath cfgDevChain).paths := by
    rw [hp]
    exact List.mem_cons_self _ _
  have hD : recordDevOnlyNotVulnerable
      (step6_constructPath cfgDevChain).dependencies "D" = true := by decide
  have h2 := h ["D", "M", "X"] hmem 0 1 "D" "M" (by omega) rfl rfl hD
  have hM : recordDevOnlyOrVulnerable
      (step6_constructPath cfgDevChain).dependencies "M" = false := by decide
  rw [h2] at hM
  simp at hM

/-- C2 (amended): a dequeued node whose record is development-only and not
vulnerable never has its children expanded — the step only stores the
record and dequeues, enqueuing nothing and leaving paths, the found set and
the exposure counts unchanged. (The output-level exclusion claimed of the
report does not hold, because the queue is pre-seeded with every
root-to-node path, including paths through development-only nodes.) -/
theorem C2_claim (cfg : Config) (p : List String) (rest : List (List String))
    (f : List String) (dm : List (String × DepRecord)) (ps : List (List String))
    (ex : List (String × Nat)) (tr : List String) (n : String)
    (hl : p.getLast? = some n) (hne : n ≠ "")
    (hv : (classifyFor cfg n).dependencyTypes.contains DependencyType.vulnerable = false)
    (hd : (classifyFor cfg n).dependencyTypes.contains DependencyType.developmentOnly = true) :
    stepLoop cfg ⟨p :: rest, f, dm, ps, ex, tr⟩ =
      ⟨rest, f, setKey dm n (classifyFor cfg n), ps, ex, tr ++ [n]⟩ :=
  stepLoop_devOnly cfg p rest f dm ps ex tr n hl hne hv hd

/-- C2 witness: the amended claim evaluated at the development-only root `D`
of the `D → M → X` configuration: the seeded paths below `D` survive in the
queue but nothing new is enqueued by processing `D`. -/
theorem C2_witness :
    stepLoop cfgDevChain ⟨[["D"], ["D", "M"]], [], [], [], [], []⟩ =
      ⟨[["D", "M"]], [], setKey [] "D" (classifyFor cfgDevChain "D"), [], [], [] ++ ["D"]⟩ :=
  C2_claim cfgDevChain ["D"] [["D", "M"]] [] [] [] [] [] "D" rfl
    (by decide) (by decide) (by decide)

/-! ### Claim C3 -/

/-- C3 counterexample: on the chain `a → b → c` with no classifications, the
name `c` occurs once in the pre-seeded queue, yet the loop processes it
three times (the seeded occurrence plus one re-expansion for each of the two
processings of `[a, b]`), exceeding the claimed bound of two. -/
theorem C3_counterexample :
    (step6_loopState cfgChain).trace.count "c" = 3 ∧
    (initializeQueueWithNestedDeps cfgChain.dependencyTree).countP
      (fun p => p.getLast? == some "c") = 1 := by
  constructor
  · decide
  · decide

/-- C3 (amended): for every well-formed finite tree the traversal loop
always terminates — fuel equal to the initial queue measure drains the queue
completely, so `step6_loopState` is the loop's true final state; but the
at-most-twice bound does not hold (a node at depth `k` whose ancestors are
all expanded is processed `k` times). -/
theorem C3_claim (cfg : Config) (hwf : treeWF cfg.dependencyTree = true) :
    (step6_loopState cfg).queue = [] ∧
    (∀ (n : Nat) (s : EngineState),
      queueMeasure cfg.dependencyTree s.queue ≤ n → (runLoop cfg n s).queue = []) := by
  constructor
  · exact runLoop_drains cfg hwf _ _ le_rfl
  · exact runLoop_drains cfg hwf

/-- C3 witness: the termination theorem applied to the chain configuration. -/
theorem C3_witness : (step6_loopState cfgChain).queue = [] :=
  (C3_claim cfgChain (by decide)).1

/-! ### Claim C4 -/

/-- C4 counterexample: for the dependency `x.js` and a finding whose
`fileName` is `x.js`, the code's raw prefix match accepts the finding and
returns its CVSS 5, while the matching rule of the claim (prefix match
against the suffix-stripped name `x`) rejects it and returns `-1`. -/
theorem C4_counterexample :
    getHighestCvssScoreForDependency "x.js"
      [{ fileName := "x.js", vulnerabilities := [⟨"s", "n", "sev", 5⟩] }] = 5 ∧
    claimHighestCvssScore "x.js"
      [{ fileName := "x.js", vulnerabilities := [⟨"s", "n", "sev", 5⟩] }] = -1 := by
  constructor
  · decide
  · decide

/-- C4 (amended): `highestCvssScore` is the maximum CVSS entry over the
findings whose **raw, unstripped** `fileName` has the dependency name as a
string prefix, and `-1` when no such finding exists: the result is at least
`-1`, dominates every matching score, and is either `-1` or itself a
matching score. -/
theorem C4_claim (dependency : String) (data : List Finding) :
    getHighestCvssScoreForDependency dependency data =
      (matchingScores dependency data).foldl max (-1) ∧
    -1 ≤ getHighestCvssScoreForDependency dependency data ∧
    (∀ s ∈ matchingScores dependency data,
      s ≤ getHighestCvssScoreForDependency dependency data) ∧
    (getHighestCvssScoreForDependency dependency data = -1 ∨
      getHighestCvssScoreForDependency dependency data ∈ matchingScores dependency data) := by
  have heq : getHighestCvssScoreForDependency dependency data =
      (matchingScores dependency data).foldl max (-1) := rfl
  refine ⟨heq, ?_, ?_, ?_⟩
  · rw [heq]
    exact foldl_max_init_le _ _
  · intro s hs
    rw [heq]
    exact foldl_max_le_of_mem _ _ s hs
  · rw [heq]
    exact foldl_max_mem _ _

/-- C4 witness: the amended claim evaluated on one matching `lodash` finding
(raw prefix match, CVSS 7): the score is 7, it dominates the matching score
7, and it is itself one of the matching scores. -/
theorem C4_witness :
    7 ≤ getHighestCvssScoreForDependency "lodash"
      [{ fileName := "lodash.min.js", vulnerabilities := [⟨"s", "n", "sev", 7⟩] }] ∧
    -1 ≤ getHighestCvssScoreForDependency "lodash"
      [{ fileName := "lodash.min.js", vulnerabilities := [⟨"s", "n", "sev", 7⟩] }] := by
  constructor
  · exact (C4_claim "lodash"
      [{ fileName := "lodash.min.js", vulnerabilities := [⟨"s", "n", "sev", 7⟩] }]).2.2.1
      7 (by decide)
  · exact (C4_claim "lodash"
      [{ fileName := "lodash.min.js", vulnerabilities := [⟨"s", "n", "sev", 7⟩] }]).2.1

/-! ### Claim C5 -/

/-- C5 counterexample: the key `a` is present in `releaseIntervals` with the
stored value `0`, yet `intervals` is `-1` — `releaseIntervals[dependency]
|| -1` treats the falsy `0` like an absent key, contradicting the claim that
a present `0` is returned as `0`. -/
theorem C5_counterexample :
    ([("a", (0 : Int))].lookup "a" = some 0) ∧
    (classifyDependency "a" [] [] [] [] [] [("a", 0)]).intervals = -1 := by
  constructor
  · decide
  · decide

/-- C5 (amended): `intervals` equals the stored value when the key is
present with a non-zero value, and `-1` both when the key is absent and when
the stored value is `0` (JS `||` treats the stored `0` as falsy). -/
theorem C5_claim (dependency : String)
    (devDependencies withinProjectDependencies laggingDependencies vulnerabilities : List String)
    (vulnerabilitiesData : List Finding) (releaseIntervals : List (String × Int)) :
    (∀ v : Int, releaseIntervals.lookup dependency = some v → v ≠ 0 →
      (classifyDependency dependency devDependencies withinProjectDependencies
        laggingDependencies vulnerabilities vulnerabilitiesData releaseIntervals).intervals = v) ∧
    (releaseIntervals.lookup dependency = some 0 →
      (classifyDependency dependency devDependencies withinProjectDependencies
        laggingDependencies vulnerabilities vulnerabilitiesData releaseIntervals).intervals = -1) ∧
    (releaseIntervals.lookup dependency = none →
      (classifyDependency dependency devDependencies withinProjectDependencies
        laggingDependencies vulnerabilities vulnerabilitiesData releaseIntervals).intervals = -1) := by
  refine ⟨?_, ?_, ?_⟩
  · intro v hv hne
    simp only [classifyDependency, hv]
    rw [if_neg hne]
  · intro hv
    simp only [classifyDependency, hv]
    simp
  · intro hv
    simp only [classifyDependency, hv]

/-- C5 witness: the amended claim at a present non-zero interval (7), a
present zero interval, and an absent key. -/
theorem C5_witness :
    (classifyDependency "a" [] [] [] [] [] [("a", 7)]).intervals = 7 ∧
    (classifyDependency "b" [] [] [] [] [] [("b", 0)]).intervals = -1 ∧
    (classifyDependency "c" [] [] [] [] [] []).intervals = -1 := by
  refine ⟨?_, ?_, ?_⟩
  · exact (C5_claim "a" [] [] [] [] [] [("a", 7)]).1 7 (by decide) (by decide)
  · exact (C5_claim "b" [] [] [] [] [] [("b", 0)]).2.1 (by decide)
  · exact (C5_claim "c" [] [] [] [] [] []).2.2 (by decide)

/-! ### Claim C6 -/

/-- C6 counterexample: in the two-vulnerability configuration the record
maxima of the two output paths are `-1` (for `["x"]`) and `0` (for `["y"]`),
but the sort key clamps both to `0` via `reduce(Math.max, 0)`, so the stable
sort leaves `["x"]` (record maximum `-1`) *before* `["y"]` (record maximum
`0`), violating the claimed ordering by record maxima. -/
theorem C6_counterexample : ¬ claimSortedByRecordMax (step6_constructPath cfgTwoVuln) := by
  intro h
  have h2 := h 0 1 ["x"] ["y"] (by omega) (by decide) (by decide)
  have e1 : claimPathMax (step6_constructPath cfgTwoVuln).dependencies ["y"] = 0 := by decide
  have e2 : claimPathMax (step6_constructPath cfgTwoVuln).dependencies ["x"] = -1 := by decide
  rw [e1, e2] at h2
  omega

/-- C6 (amended): the final report's paths are the stable descending sort of
the pre-sort paths by the key the code computes — the per-path maximum of
the records' `highestCvssScore` clamped below by `0` (`Math.max` reduced
from the initial accumulator `0`, with a missing record contributing `0`):
earlier paths have keys at least as large as later paths, and paths with
equal keys keep their pre-sort relative order. -/
theorem C6_claim (cfg : Config) :
    ((step6_constructPath cfg).paths =
      sortByKeyDesc (pathScore (step6_loopState cfg).depsMap) (step6_loopState cfg).paths) ∧
    (∀ (i j : Nat) (A B : List String), i < j →
      (step6_constructPath cfg).paths.get? i = some A →
      (step6_constructPath cfg).paths.get? j = some B →
      pathScore (step6_constructPath cfg).dependencies B ≤
        pathScore (step6_constructPath cfg).dependencies A) ∧
    (∀ k : Int,
      (step6_constructPath cfg).paths.filter
        (fun p => pathScore (step6_constructPath cfg).dependencies p == k) =
      (step6_loopState cfg).paths.filter
        (fun p => pathScore (step6_constructPath cfg).dependencies p == k)) := by
  refine ⟨rfl, ?_, ?_⟩
  · intro i j A B hij hA hB
    exact sorted_get? (pathScore (step6_loopState cfg).depsMap)
      (sortByKeyDesc (pathScore (step6_loopState cfg).depsMap) (step6_loopState cfg).paths)
      (sortByKeyDesc_pairwise _ _) i j hij A B hA hB
  · intro k
    exact sortByKeyDesc_filter (pathScore (step6_loopState cfg).depsMap) k
      (step6_loopState cfg).paths

/-- C6 witness: the amended claim on the two-vulnerability configuration:
the two equal-key paths keep their queue order, and the earlier path's key
is at least the later one's. -/
theorem C6_witness :
    pathScore (step6_constructPath cfgTwoVuln).dependencies ["y"] ≤
      pathScore (step6_constructPath cfgTwoVuln).dependencies ["x"] ∧
    (step6_constructPath cfgTwoVuln).paths.filter
      (fun p => pathScore (step6_constructPath cfgTwoVuln).dependencies p == 0) =
    (step6_loopState cfgTwoVuln).paths.filter
      (fun p => pathScore (step6_constructPath cfgTwoVuln).dependencies p == 0) := by
  constructor
  · exact (C6_claim cfgTwoVuln).2.1 0 1 ["x"] ["y"] (by omega) (by decide) (by decide)
  · exact (C6_claim cfgTwoVuln).2.2 0

/-! ### Claim C7 -/

theorem lookup_setKey {α : Type} (m : List (String × α)) (k : String) (v : α) :
    (setKey m k v).lookup k = some v := by
  induction m with
  | nil => simp [setKey, List.lookup]
  | cons head tail ih =>
    obtain ⟨k', v'⟩ := head
    rw [setKey]
    by_cases h : k' = k
    · rw [if_pos h]
      simp [List.lookup]
    · rw [if_neg h]
      rw [List.lookup]
      have hb : (k == k') = false := beq_false_of_ne (fun hh => h hh.symm)
      rw [hb]
      exact ih

theorem mem_addFound_self (f : List String) (n : String) : n ∈ addFound f n := by
  unfold addFound
  by_cases h : f.contains n
  · rw [if_pos h]
    exact List.elem_iff.mp h
  · rw [if_neg h]
    exact List.mem_append_right f (List.mem_singleton.mpr rfl)

theorem addFound_mono (f : List String) (n m : String) (h : m ∈ f) : m ∈ addFound f n := by
  unfold addFound
  by_cases hc : f.contains n
  · rw [if_pos hc]
    exact h
  · rw [if_neg hc]
    exact List.mem_append_left _ h

theorem stepLoop_nil (cfg : Config) (f : List String) (dm : List (String × DepRecord))
    (ps : List (List String)) (ex : List (String × Nat)) (tr : List String) :
    stepLoop cfg ⟨[], f, dm, ps, ex, tr⟩ = ⟨[], f, dm, ps, ex, tr⟩ := by
  simp [stepLoop]

/-- The found-vulnerable set only grows across loop iterations. -/
theorem stepLoop_found_mono (cfg : Config) (s : EngineState) :
    ∀ m ∈ s.foundVulnerableDeps, m ∈ (stepLoop cfg s).foundVulnerableDeps := by
  obtain ⟨q, f, dm, ps, ex, tr⟩ := s
  intro m hm
  cases q with
  | nil => rw [stepLoop_nil]; exact hm
  | cons p rest =>
    cases hl : p.getLast? with
    | none => rw [stepLoop_skip_none cfg p rest f dm ps ex tr hl]; exact hm
    | some n =>
      by_cases hne : n = ""
      · subst hne
        rw [stepLoop_skip_empty cfg p rest f dm ps ex tr hl]
        exact hm
      · by_cases hv : (classifyFor cfg n).dependencyTypes.contains DependencyType.vulnerable
        · rw [stepLoop_vulnerable cfg p rest f dm ps ex tr n hl hne hv]
          exact addFound_mono f n m hm
        · have hv' := Bool.of_not_eq_true hv
          by_cases hd : (classifyFor cfg n).dependencyTypes.contains DependencyType.developmentOnly
          · rw [stepLoop_devOnly cfg p rest f dm ps ex tr n hl hne hv' hd]
            exact hm
          · have hd' := Bool.of_not_eq_true hd
            rw [stepLoop_expand cfg p rest f dm ps ex tr n hl hne hv' hd']
            exact hm

/-- Once a name is in the found-vulnerable set, no iteration enqueues a new
path ending in that name: the expansion branch filters the children against
the set, and the other branches enqueue nothing. -/
theorem stepLoop_no_enqueue_found (cfg : Config) (s : EngineState) (n : String)
    (hn : n ∈ s.foundVulnerableDeps) :
    ∀ q ∈ (stepLoop cfg s).queue, q ∈ s.queue ∨ q.getLast? ≠ some n := by
  obtain ⟨qu, f, dm, ps, ex, tr⟩ := s
  intro q hq
  cases hqu : qu with
  | nil =>
    subst hqu
    rw [stepLoop_nil] at hq
    exact Or.inl hq
  | cons p rest =>
    subst hqu
    cases hl : p.getLast? with
    | none =>
      rw [stepLoop_skip_none cfg p rest f dm ps ex tr hl] at hq
      exact Or.inl (List.mem_cons_of_mem p hq)
    | some m =>
      by_cases hne : m = ""
      · subst hne
        rw [stepLoop_skip_empty cfg p rest f dm ps ex tr hl] at hq
        exact Or.inl (List.mem_cons_of_mem p hq)
      · by_cases hv : (classifyFor cfg m).dependencyTypes.contains DependencyType.vulnerable
        · rw [stepLoop_vulnerable cfg p rest f dm ps ex tr m hl hne hv] at hq
          exact Or.inl (List.mem_cons_of_mem p hq)
        · have hv' := Bool.of_not_eq_true hv
          by_cases hd : (classifyFor cfg m).dependencyTypes.contains
              DependencyType.developmentOnly
          · rw [stepLoop_devOnly cfg p rest f dm ps ex tr m hl hne hv' hd] at hq
            exact Or.inl (List.mem_cons_of_mem p hq)
          · have hd' := Bool.of_not_eq_true hd
            rw [stepLoop_expand cfg p rest f dm ps ex tr m hl hne hv' hd'] at hq
            dsimp only at hq
            rcases List.mem_append.mp hq with hq | hq
            · exact Or.inl (List.mem_cons_of_mem p hq)
            · right
              obtain ⟨child, hchild, hq⟩ := List.mem_map.mp hq
              obtain ⟨_, hfil⟩ := List.mem_filter.mp hchild
              subst hq
              rw [List.getLast?_concat]
              intro hcontra
              injection hcontra with hcontra
              subst hcontra
              have : f.contains child = true := List.elem_iff.mpr hn
              rw [this] at hfil
              simp at hfil

/-- C7: dequeuing a path whose terminal name is classified vulnerable
increments that name's `vulnerabilityExposure` by one, appends the
simplified path to the report's paths, adds the name to the found-vulnerable
set, and expands no children (the queue only loses its front); and since the
found set only grows, no later expansion ever enqueues a path ending in that
name again. -/
theorem C7_claim (cfg : Config) (p : List String) (rest : List (List String))
    (f : List String) (dm : List (String × DepRecord)) (ps : List (List String))
    (ex : List (String × Nat)) (tr : List String) (n : String)
    (hl : p.getLast? = some n) (hne : n ≠ "")
    (hv : (classifyFor cfg n).dependencyTypes.contains DependencyType.vulnerable = true) :
    (stepLoop cfg ⟨p :: rest, f, dm, ps, ex, tr⟩ =
      ⟨rest, addFound f n, setKey dm n (classifyFor cfg n),
        ps ++ [simplifyPath p cfg.withinProjectDependencies],
        bumpExposure ex n, tr ++ [n]⟩) ∧
    (bumpExposure ex n).lookup n = some (((ex.lookup n).getD 0) + 1) ∧
    n ∈ addFound f n ∧
    (∀ (s : EngineState), n ∈ s.foundVulnerableDeps →
      ∀ q ∈ (stepLoop cfg s).queue, q ∈ s.queue ∨ q.getLast? ≠ some n) ∧
    (∀ (s : EngineState), ∀ m ∈ s.foundVulnerableDeps,
      m ∈ (stepLoop cfg s).foundVulnerableDeps) :=
  ⟨stepLoop_vulnerable cfg p rest f dm ps ex tr n hl hne hv,
    lookup_setKey ex n _,
    mem_addFound_self f n,
    fun s hs => stepLoop_no_enqueue_found cfg s n hs,
    fun s => stepLoop_found_mono cfg s⟩

/-- C7 witness: the vulnerable branch evaluated on the single-vulnerability
configuration at its seeded queue. -/
theorem C7_witness :
    stepLoop cfgOneVuln ⟨[["v"]], [], [], [], [], []⟩ =
      ⟨[], addFound [] "v", setKey [] "v" (classifyFor cfgOneVuln "v"),
        [] ++ [simplifyPath ["v"] cfgOneVuln.withinProjectDependencies],
        bumpExposure [] "v", [] ++ ["v"]⟩ :=
  (C7_claim cfgOneVuln ["v"] [] [] [] [] [] [] "v" (by decide) (by decide) (by decide)).1

/-! ### Claim C8 -/

/-- C8: the engine is a pure function of the tree and the classification
inputs — two runs on equal configurations produce equal `dependencies`
maps, equal `vulnerabilityExposure` counts, and equal final path orders. -/
theorem C8_claim (c1 c2 : Config) (h : c1 = c2) :
    (step6_constructPath c1).dependencies = (step6_constructPath c2).dependencies ∧
    (step6_constructPath c1).vulnerabilityExposure =
      (step6_constructPath c2).vulnerabilityExposure ∧
    (step6_constructPath c1).paths = (step6_constructPath c2).paths := by
  subst h
  exact ⟨rfl, rfl, rfl⟩

/-- C8 witness: determinism applied to the single-vulnerability
configuration. -/
theorem C8_witness :
    (step6_constructPath cfgOneVuln).dependencies =
      (step6_constructPath cfgOneVuln).dependencies ∧
    (step6_constructPath cfgOneVuln).vulnerabilityExposure =
      (step6_constructPath cfgOneVuln).vulnerabilityExposure ∧
    (step6_constructPath cfgOneVuln).paths = (step6_constructPath cfgOneVuln).paths :=
  C8_claim cfgOneVuln cfgOneVuln rfl

/-! ### Claim C9 -/

/-- C9: `findChildren` is total — it equals the keys of the node the path
resolves to, and returns the empty list (rather than failing) whenever some
step of the path has no matching child. -/
theorem C9_claim (t : DepTree) (p : List String) :
    (findChildren t p =
      (match resolve t p with
       | some (DepTree.node deps) => deps.keys
       | none => [])) ∧
    (resolve t p = none → findChildren t p = []) :=
  ⟨findChildren_eq_resolve p t, fun h => findChildren_of_resolve_none t p h⟩

/-- C9 witness: an unresolvable path on the empty tree yields `[]`. -/
theorem C9_witness : findChildren leaf ["zzz"] = [] :=
  (C9_claim leaf ["zzz"]).2 rfl

/-! ### Claim C10 -/

/-- The vulnerable tag is exact-name membership in the stripped finding
names, independent of the other classification sets. -/
theorem vulnerable_tag_iff (dep : String) (devs within lagging : List String)
    (data : List Finding) (ri : List (String × Int)) :
    (classifyDependency dep devs within lagging (vulnNames data) data
        ri).dependencyTypes.contains DependencyType.vulnerable = true ↔
      ∃ e ∈ data, stripVulnName e.fileName = dep := by
  have hmem : ((vulnNames data).contains dep = true) ↔
      ∃ e ∈ data, stripVulnName e.fileName = dep := by
    rw [List.elem_iff]
    simp [vulnNames, List.mem_map]
  rw [← hmem]
  unfold classifyDependency
  by_cases h1 : devs.contains dep <;> by_cases h2 : within.contains dep <;>
    by_cases h3 : lagging.contains dep <;>
    by_cases h4 : (vulnNames data).contains dep <;>
      simp [h1, h2, h3, h4]

/-- C10: the vulnerable tag and the CVSS maximum use different matching
rules — exact equality against the colon-truncated, `.min`/`.js`-stripped
finding name for the tag, raw-prefix matching for the score — and the rules
genuinely diverge: the `.jsx` finding tags `x` as vulnerable with score
`-1`, while the `lodash` finding gives the untagged `lo` the score `5`. -/
theorem C10_claim :
    (∀ (dep : String) (devs within lagging : List String) (data : List Finding)
        (ri : List (String × Int)),
      ((classifyDependency dep devs within lagging (vulnNames data) data
          ri).dependencyTypes.contains DependencyType.vulnerable = true ↔
        ∃ e ∈ data, stripVulnName e.fileName = dep)) ∧
    (∀ (dep : String) (data : List Finding),
      getHighestCvssScoreForDependency dep data =
        (matchingScores dep data).foldl max (-1)) ∧
    ((classifyDependency "x" [] [] [] (vulnNames dataTagNoScore) dataTagNoScore
        []).dependencyTypes.contains DependencyType.vulnerable = true ∧
      getHighestCvssScoreForDependency "x" dataTagNoScore = -1) ∧
    ((classifyDependency "lo" [] [] [] (vulnNames dataScoreNoTag) dataScoreNoTag
        []).dependencyTypes.contains DependencyType.vulnerable = false ∧
      getHighestCvssScoreForDependency "lo" dataScoreNoTag = 5) := by
  refine ⟨vulnerable_tag_iff, fun dep data => rfl, ⟨?_, ?_⟩, ⟨?_, ?_⟩⟩
  · decide
  · decide
  · decide
  · decide

/-- C10 witness: the diverging concrete instances extracted from the claim's
theorem. -/
theorem C10_witness :
    getHighestCvssScoreForDependency "x" dataTagNoScore = -1 ∧
    getHighestCvssScoreForDependency "lo" dataScoreNoTag = 5 :=
  ⟨C10_claim.2.2.1.2, C10_claim.2.2.2.2⟩

end Vuln4Real
